import Mathlib

/-!
Verification of the size-aggregation and summary-extraction core of
`scripts/generate-metadata.py`.

A parsed JSON value relevant to the aggregator is modelled by `Entry`:
a mapping (`dict`, keeping the fields the code reads: `ino`, `dsize`,
`asize`, `name`), a sequence (`list`), or any other JSON value (`other`).
Python's `None`-able field reads (`entry.get('ino')`, `entry.get('dsize', 0)`,
`entry.get('name', 'unknown')`) become `Option` fields with the same defaults.
-/

inductive Entry : Type where
  | dict (ino : Option Int) (dsize : Option Int) (asize : Option Int) (name : Option String)
  | list (children : List Entry)
  | other

mutual

/-- Embedding of `get_entry_size(entry, seen_inodes)` from
`scripts/generate-metadata.py` (lines 30-76).  The Python function mutates
`seen_inodes`; here the set is threaded explicitly, so the result is the pair
(returned total, final set).  A mapping returns `dsize` (default 0) unless its
inode is already in the set; a sequence with at least one element sums the
results over elements after the first, threading the set left to right; any
other value yields 0. -/
def get_entry_size (entry : Entry) (seen_inodes : Finset Int) : Int × Finset Int :=
  match entry with
  | .dict ino dsize _ _ =>
      match ino with
      | some i =>
          if i ∈ seen_inodes then
            (0, seen_inodes)
          else
            (dsize.getD 0, insert i seen_inodes)
      | none => (dsize.getD 0, seen_inodes)
  | .list [] => (0, seen_inodes)
  | .list (_ :: children) => get_children_size children seen_inodes
  | .other => (0, seen_inodes)

/-- The `for i in range(1, len(entry))` accumulation loop of `get_entry_size`:
sums the sizes of a list of children, threading the seen-inode set. -/
def get_children_size (children : List Entry) (seen_inodes : Finset Int) :
    Int × Finset Int :=
  match children with
  | [] => (0, seen_inodes)
  | child :: rest =>
      let r := get_entry_size child seen_inodes
      let r2 := get_children_size rest r.2
      (r.1 + r2.1, r2.2)

end

/-- The inode identifier a mapping node carries, if any: `entry.get('ino')`. -/
def inoOf : Entry → Option Int
  | .dict ino _ _ _ => ino
  | _ => none

/-- The disk-usage size the aggregator would read off a mapping node:
`entry.get('dsize', 0)`. -/
def dsizeOf : Entry → Int
  | .dict _ dsize _ _ => dsize.getD 0
  | _ => 0

mutual

/-- The mapping (File) nodes the aggregator visits in a subtree, in visit
order: the node itself if it is a mapping, and for a sequence with at least
one element the visited nodes of every element after the first.  The metadata
head of a sequence is never visited. -/
def fileNodes : Entry → List Entry
  | .dict ino dsize asize name => [.dict ino dsize asize name]
  | .list [] => []
  | .list (_ :: children) => fileNodesList children
  | .other => []

/-- `fileNodes` over a list of children, concatenated in order. -/
def fileNodesList : List Entry → List Entry
  | [] => []
  | child :: rest => fileNodes child ++ fileNodesList rest

end

/-- The inode identifiers of the visited mapping nodes of a subtree. -/
def inodesOf (e : Entry) : List Int :=
  (fileNodes e).filterMap inoOf

/-- The inode identifiers of the visited mapping nodes of a child list. -/
def inodesOfList (l : List Entry) : List Int :=
  (fileNodesList l).filterMap inoOf

/-- The plain (dedup-free) sum of the disk-usage fields of the visited
mapping nodes of a subtree. -/
def plainSize (e : Entry) : Int :=
  ((fileNodes e).map dsizeOf).sum

/-- A parsed input document: the five pass-through scalar fields plus
`data.get("data", [])`, as read by `generate_metadata` (lines 81-94). -/
structure Doc : Type where
  architecture : Option String
  timestamp : Option String
  runner : Option String
  total_disk_size : Option Int
  available_space : Option Int
  data : List Entry

/-- The summary record `generate_metadata` assembles.  A `none` in the three
computed fields models the corresponding key being absent from the emitted
JSON object. -/
structure Summary : Type where
  architecture : Option String
  timestamp : Option String
  runner : Option String
  total_disk_size : Option Int
  available_space : Option Int
  total_size : Option Int
  top_entries : Option (List (Int × String × Bool))
  total_entries : Option Nat

/-- Embedding of the per-child loop of `generate_metadata` (lines 110-132):
iterates the root's children in order with one shared seen-inode set, emitting
`[size, name, has_children]` for each recognized child (a sequence with at
least one element whose head is a mapping, or a mapping) and skipping every
other shape.  Returns the emitted entries together with the final shared set. -/
def topLoop (children : List Entry) (shared_inodes : Finset Int) :
    List (Int × String × Bool) × Finset Int :=
  match children with
  | [] => ([], shared_inodes)
  | entry :: rest =>
      match entry with
      | .list (entry_meta :: tail) =>
          match entry_meta with
          | .dict _ _ _ nm =>
              let name := nm.getD "unknown"
              let r := get_entry_size (.list (entry_meta :: tail)) shared_inodes
              let has_children := decide (1 < (entry_meta :: tail).length)
              let l := topLoop rest r.2
              ((r.1, name, has_children) :: l.1, l.2)
          | _ => topLoop rest shared_inodes
      | .dict ino dsize asize nm =>
          let name := nm.getD "unknown"
          let r := get_entry_size (.dict ino dsize asize nm) shared_inodes
          let l := topLoop rest r.2
          ((r.1, name, false) :: l.1, l.2)
      | _ => topLoop rest shared_inodes

/-- The root-location step of `generate_metadata` (lines 94-97): the document's
`data` array must have more than 3 elements, and element index 3 is the root. -/
def locateRoot (d : Doc) : Option Entry :=
  if 3 < d.data.length then d.data[3]? else none

/-- Embedding of `generate_metadata` (lines 79-139), minus file I/O: copies the
five pass-through fields, and when the located root is a sequence with at least
one element, fills `total_size` (only when the root's head is a mapping, with a
fresh seen-inode set), `top_entries` (via `topLoop` with its own fresh shared
set) and `total_entries` (root length minus one).  Otherwise the three computed
fields stay absent. -/
def generate_metadata (d : Doc) : Summary :=
  let base : Summary :=
    { architecture := d.architecture
      timestamp := d.timestamp
      runner := d.runner
      total_disk_size := d.total_disk_size
      available_space := d.available_space
      total_size := none
      top_entries := none
      total_entries := none }
  match locateRoot d with
  | some (.list (root_meta :: rest)) =>
      let total_size? : Option Int :=
        match root_meta with
        | .dict _ _ _ _ => some (get_entry_size (.list (root_meta :: rest)) ∅).1
        | _ => none
      { base with
        total_size := total_size?
        top_entries := some (topLoop rest ∅).1
        total_entries := some ((root_meta :: rest).length - 1) }
  | _ => base

/-! Concrete fixtures used by witnesses and counterexamples. -/

/-- A top-level directory holding one file with inode 7 and disk usage 10. -/
def dirOne : Entry :=
  .list [.dict none (some 4096) none (some "d1"),
         .dict (some 7) (some 10) none (some "f1")]

/-- A second top-level directory holding another file with the same inode 7. -/
def dirTwo : Entry :=
  .list [.dict none (some 4096) none (some "d2"),
         .dict (some 7) (some 10) none (some "f2")]

/-- A child whose head is not a mapping: aggregated by the grand-total pass
(it contributes 50) but skipped by the per-child loop. -/
def oddChild : Entry :=
  .list [.other, .dict none (some 50) none (some "g")]

/-- A document whose root has two top-level directories sharing inode 7 plus
one child of unrecognized shape. -/
def sharedInodeDoc : Doc :=
  { architecture := none, timestamp := none, runner := none
    total_disk_size := none, available_space := none
    data := [.other, .other, .other,
             .list [.dict none (some 4096) none (some "root"),
                    dirOne, dirTwo, oddChild]] }

/-- A document whose `data` array has four elements but whose element index 3
is a mapping, not a sequence. -/
def dictRootDoc : Doc :=
  { architecture := none, timestamp := none, runner := none
    total_disk_size := none, available_space := none
    data := [.other, .other, .other, .dict none (some 4096) none (some "root")] }

/-- A document whose root is a nonempty sequence whose head is not a mapping. -/
def headlessRootDoc : Doc :=
  { architecture := none, timestamp := none, runner := none
    total_disk_size := none, available_space := none
    data := [.other, .other, .other, .list [.other, dirOne]] }

/-- The plain (dedup-free) sum of the disk-usage fields over a child list. -/
def plainSizeList (l : List Entry) : Int :=
  ((fileNodesList l).map dsizeOf).sum

/-- The sum of the size components of a list of emitted top entries. -/
def topSum (l : List (Int × String × Bool)) : Int :=
  (l.map (fun t => t.1)).sum

/-- A directory tree whose files carry pairwise distinct inodes. -/
def distinctTree : Entry :=
  .list [.dict none (some 4096) none (some "d"),
         .dict (some 1) (some 10) none (some "a"),
         .list [.dict none (some 4096) none (some "sub"),
                .dict (some 2) (some 20) none (some "b")],
         .dict none (some 5) none (some "c")]

/-- The sequence `e` has a metadata head and a child carrying inode `i`. -/
def dirContainsFileWithIno (e : Entry) (i : Int) : Prop :=
  ∃ m cs, e = Entry.list (m :: cs) ∧ ∃ c ∈ cs, inoOf c = some i

theorem inodesOf_dict (ino ds as : Option Int) (nm : Option String) :
    inodesOf (.dict ino ds as nm) = ino.toList := by
  cases ino <;> simp [inodesOf, fileNodes, inoOf]

theorem inodesOf_list_nil : inodesOf (.list []) = [] := by
  simp [inodesOf, fileNodes]

theorem inodesOf_list_cons (m : Entry) (cs : List Entry) :
    inodesOf (.list (m :: cs)) = inodesOfList cs := by
  simp [inodesOf, inodesOfList, fileNodes]

theorem inodesOf_other : inodesOf .other = [] := by
  simp [inodesOf, fileNodes]

theorem inodesOfList_nil : inodesOfList [] = [] := by
  simp [inodesOfList, fileNodesList]

theorem inodesOfList_cons (c : Entry) (rest : List Entry) :
    inodesOfList (c :: rest) = inodesOf c ++ inodesOfList rest := by
  simp [inodesOfList, inodesOf, fileNodesList, List.filterMap_append]

mutual

theorem subset_get_entry_size (e : Entry) (s : Finset Int) :
    s ⊆ (get_entry_size e s).2 := by
  match e with
  | .dict ino ds as nm =>
    cases ino with
    | none => simp [get_entry_size]
    | some i =>
      simp only [get_entry_size]
      split
      · simp
      · exact Finset.subset_insert i s
  | .list [] => simp [get_entry_size]
  | .list (m :: cs) =>
    simpa [get_entry_size] using subset_get_children_size cs s
  | .other => simp [get_entry_size]

theorem subset_get_children_size (l : List Entry) (s : Finset Int) :
    s ⊆ (get_children_size l s).2 := by
  match l with
  | [] => simp [get_children_size]
  | c :: rest =>
    simp only [get_children_size]
    exact (subset_get_entry_size c s).trans
      (subset_get_children_size rest (get_entry_size c s).2)

end

mutual

theorem mem_final_get_entry_size (e : Entry) (s : Finset Int) (x : Int)
    (hx : x ∈ (get_entry_size e s).2) : x ∈ s ∨ x ∈ inodesOf e := by
  match e with
  | .dict ino ds as nm =>
    cases ino with
    | none =>
      simp only [get_entry_size] at hx
      exact Or.inl hx
    | some i =>
      rw [inodesOf_dict]
      simp only [get_entry_size] at hx
      by_cases hi : i ∈ s
      · rw [if_pos hi] at hx
        exact Or.inl hx
      · rw [if_neg hi] at hx
        rcases Finset.mem_insert.mp hx with h | h
        · exact Or.inr (by simp [h])
        · exact Or.inl h
  | .list [] =>
    simp only [get_entry_size] at hx
    exact Or.inl hx
  | .list (m :: cs) =>
    rw [inodesOf_list_cons]
    exact mem_final_get_children_size cs s x (by simpa [get_entry_size] using hx)
  | .other =>
    simp only [get_entry_size] at hx
    exact Or.inl hx

theorem mem_final_get_children_size (l : List Entry) (s : Finset Int) (x : Int)
    (hx : x ∈ (get_children_size l s).2) : x ∈ s ∨ x ∈ inodesOfList l := by
  match l with
  | [] =>
    simp only [get_children_size] at hx
    exact Or.inl hx
  | c :: rest =>
    rw [inodesOfList_cons]
    simp only [get_children_size] at hx
    rcases mem_final_get_children_size rest (get_entry_size c s).2 x hx with h | h
    · rcases mem_final_get_entry_size c s x h with h' | h'
      · exact Or.inl h'
      · exact Or.inr (List.mem_append.mpr (Or.inl h'))
    · exact Or.inr (List.mem_append.mpr (Or.inr h))

end

mutual

theorem mono_get_entry_size (e : Entry) (s t : Finset Int) (hst : s ⊆ t)
    (hd : ∀ f ∈ fileNodes e, 0 ≤ dsizeOf f) :
    (get_entry_size e s).2 ⊆ (get_entry_size e t).2 ∧
      (get_entry_size e t).1 ≤ (get_entry_size e s).1 := by
  match e with
  | .dict ino ds as nm =>
    cases ino with
    | none => simpa [get_entry_size] using hst
    | some i =>
      have hds : (0 : Int) ≤ ds.getD 0 := by
        simpa [dsizeOf] using hd (.dict (some i) ds as nm) (by simp [fileNodes])
      by_cases hi : i ∈ s
      · have hit : i ∈ t := hst hi
        simp only [get_entry_size, if_pos hi, if_pos hit]
        exact ⟨hst, le_refl _⟩
      · by_cases hit : i ∈ t
        · simp only [get_entry_size, if_neg hi, if_pos hit]
          exact ⟨Finset.insert_subset hit hst, hds⟩
        · simp only [get_entry_size, if_neg hi, if_neg hit]
          exact ⟨Finset.insert_subset_insert i hst, le_refl _⟩
  | .list [] => simpa [get_entry_size] using hst
  | .list (m :: cs) =>
    have hd' : ∀ f ∈ fileNodesList cs, 0 ≤ dsizeOf f := by
      intro f hf
      exact hd f (by simpa [fileNodes] using hf)
    simpa [get_entry_size] using mono_get_children_size cs s t hst hd'
  | .other => simpa [get_entry_size] using hst

theorem mono_get_children_size (l : List Entry) (s t : Finset Int) (hst : s ⊆ t)
    (hd : ∀ f ∈ fileNodesList l, 0 ≤ dsizeOf f) :
    (get_children_size l s).2 ⊆ (get_children_size l t).2 ∧
      (get_children_size l t).1 ≤ (get_children_size l s).1 := by
  match l with
  | [] => simpa [get_children_size] using hst
  | c :: rest =>
    have hdc : ∀ f ∈ fileNodes c, 0 ≤ dsizeOf f := by
      intro f hf
      exact hd f (by simp [fileNodesList, hf])
    have hdr : ∀ f ∈ fileNodesList rest, 0 ≤ dsizeOf f := by
      intro f hf
      exact hd f (by simp [fileNodesList, hf])
    obtain ⟨hsub₁, hle₁⟩ := mono_get_entry_size c s t hst hdc
    obtain ⟨hsub₂, hle₂⟩ :=
      mono_get_children_size rest (get_entry_size c s).2 (get_entry_size c t).2 hsub₁ hdr
    simp only [get_children_size]
    exact ⟨hsub₂, add_le_add hle₁ hle₂⟩

end

theorem plainSize_dict (ino ds as : Option Int) (nm : Option String) :
    plainSize (.dict ino ds as nm) = ds.getD 0 := by
  simp [plainSize, fileNodes, dsizeOf]

theorem plainSize_list_cons (m : Entry) (cs : List Entry) :
    plainSize (.list (m :: cs)) = plainSizeList cs := by
  simp [plainSize, plainSizeList, fileNodes]

theorem plainSizeList_cons (c : Entry) (rest : List Entry) :
    plainSizeList (c :: rest) = plainSize c + plainSizeList rest := by
  simp [plainSizeList, plainSize, fileNodesList]

mutual

theorem fresh_get_entry_size (e : Entry) (s : Finset Int)
    (hnd : (inodesOf e).Nodup) (hdisj : ∀ i ∈ inodesOf e, i ∉ s) :
    (get_entry_size e s).1 = plainSize e ∧
      (get_entry_size e s).2 = s ∪ (inodesOf e).toFinset := by
  match e with
  | .dict ino ds as nm =>
    cases ino with
    | none =>
      simp [get_entry_size, plainSize_dict, inodesOf_dict]
    | some i =>
      have hi : i ∉ s := hdisj i (by simp [inodesOf_dict])
      simp only [get_entry_size, if_neg hi]
      refine ⟨by simp [plainSize_dict], ?_⟩
      rw [inodesOf_dict]
      ext x
      simp [or_comm]
  | .list [] =>
    simp [get_entry_size, plainSize, fileNodes, inodesOf_list_nil]
  | .list (m :: cs) =>
    rw [inodesOf_list_cons] at hnd hdisj
    have h := fresh_get_children_size cs s hnd hdisj
    simpa [get_entry_size, plainSize_list_cons, inodesOf_list_cons] using h
  | .other =>
    simp [get_entry_size, plainSize, fileNodes, inodesOf_other]

theorem fresh_get_children_size (l : List Entry) (s : Finset Int)
    (hnd : (inodesOfList l).Nodup) (hdisj : ∀ i ∈ inodesOfList l, i ∉ s) :
    (get_children_size l s).1 = plainSizeList l ∧
      (get_children_size l s).2 = s ∪ (inodesOfList l).toFinset := by
  match l with
  | [] =>
    simp [get_children_size, plainSizeList, fileNodesList, inodesOfList_nil]
  | c :: rest =>
    rw [inodesOfList_cons] at hnd hdisj
    obtain ⟨hnc, hnr, hdis⟩ := List.nodup_append.mp hnd
    obtain ⟨hv1, hs1⟩ :=
      fresh_get_entry_size c s hnc
        (fun i hi => hdisj i (List.mem_append.mpr (Or.inl hi)))
    have hdisj' : ∀ i ∈ inodesOfList rest, i ∉ (get_entry_size c s).2 := by
      intro i hi
      rw [hs1]
      simp only [Finset.mem_union, List.mem_toFinset]
      rintro (h | h)
      · exact hdisj i (List.mem_append.mpr (Or.inr hi)) h
      · exact hdis h hi
    obtain ⟨hv2, hs2⟩ := fresh_get_children_size rest (get_entry_size c s).2 hnr hdisj'
    refine ⟨?_, ?_⟩
    · simp only [get_children_size]
      rw [hv1, hv2, plainSizeList_cons]
    · simp only [get_children_size]
      rw [hs2, hs1]
      simp [inodesOfList_cons, Finset.union_assoc]

end

example : (get_entry_size (.dict (some 1) (some 4096) (some 1000) (some "f")) ∅).1 = 4096 := by
  decide

example :
    (get_entry_size
      (.list [.dict none (some 4096) none (some "d"),
              .dict (some 1) (some 4096) none (some "a"),
              .dict (some 1) (some 4096) none (some "b")]) ∅).1 = 4096 := by
  decide

/-- C1: for every mapping node and every dedup set: an inode identifier
already in the set yields 0 with the set unchanged; a fresh inode identifier
is inserted and the node's disk-usage field (default 0) is returned; with no
inode identifier the disk-usage field is returned and the set is unchanged;
the apparent-size field never influences the result. -/
theorem C1_file_node_dedup (ino ds as : Option Int) (nm : Option String)
    (s : Finset Int) :
    (∀ i, ino = some i → i ∈ s →
        get_entry_size (.dict ino ds as nm) s = (0, s))
  ∧ (∀ i, ino = some i → i ∉ s →
        get_entry_size (.dict ino ds as nm) s = (ds.getD 0, insert i s))
  ∧ (ino = none → get_entry_size (.dict ino ds as nm) s = (ds.getD 0, s))
  ∧ (∀ as', get_entry_size (.dict ino ds as' nm) s
        = get_entry_size (.dict ino ds as nm) s) := by
  refine ⟨?_, ?_, ?_, ?_⟩
  · rintro i rfl hi
    simp [get_entry_size, hi]
  · rintro i rfl hi
    simp [get_entry_size, hi]
  · rintro rfl
    simp [get_entry_size]
  · intro as'
    cases ino <;> simp [get_entry_size]

theorem C1_file_node_dedup_witness :
    get_entry_size (.dict (some 5) (some 4096) (some 1000) (some "f")) {5}
      = (0, ({5} : Finset Int)) :=
  (C1_file_node_dedup (some 5) (some 4096) (some 1000) (some "f") {5}).1 5 rfl
    (by decide)

/-- C2: a sequence node with at least one element aggregates to the
set-threaded sum of the aggregates of its elements after the first; the first
(metadata) element is never read, and a sequence holding only its metadata
element aggregates to 0 whatever that element's disk-usage field is. -/
theorem C2_directory_skips_metadata (m m' : Entry) (rest : List Entry)
    (s : Finset Int) :
    get_entry_size (.list (m :: rest)) s = get_children_size rest s
  ∧ get_entry_size (.list (m :: rest)) s = get_entry_size (.list (m' :: rest)) s
  ∧ (∀ c cs, get_children_size (c :: cs) s =
      ((get_entry_size c s).1 + (get_children_size cs (get_entry_size c s).2).1,
       (get_children_size cs (get_entry_size c s).2).2))
  ∧ get_entry_size (.list [m]) s = (0, s) :=
  ⟨rfl, rfl, fun _ _ => rfl, rfl⟩

/-- C5: when the visited mapping nodes carry pairwise distinct inode
identifiers, aggregation from a fresh set equals the plain sum of their
disk-usage fields, and a mapping node without an inode identifier is never
deduplicated: it contributes its full disk-usage size against any set. -/
theorem C5_distinct_inodes_sum (e : Entry) (hnd : (inodesOf e).Nodup) :
    (get_entry_size e ∅).1 = plainSize e
  ∧ ∀ (ds as : Option Int) (nm : Option String) (s : Finset Int),
      get_entry_size (.dict none ds as nm) s = (ds.getD 0, s) := by
  refine ⟨(fresh_get_entry_size e ∅ hnd (by simp)).1, ?_⟩
  intro ds as nm s
  simp [get_entry_size]

theorem C5_distinct_inodes_sum_witness :
    (get_entry_size distinctTree ∅).1 = plainSize distinctTree ∧
      get_entry_size (.dict none (some 9) (some 1) none) ({4} : Finset Int)
        = (9, ({4} : Finset Int)) :=
  ⟨(C5_distinct_inodes_sum distinctTree (by decide)).1,
   (C5_distinct_inodes_sum distinctTree (by decide)).2 (some 9) (some 1) none {4}⟩

/-- C6: a value that is neither a mapping nor a sequence with at least one
element aggregates to 0 with the set unchanged, and the extractor's per-child
loop skips such a child, so it never appears in `top_entries`. -/
theorem C6_unrecognized_zero (s : Finset Int) (rest : List Entry) :
    get_entry_size .other s = (0, s)
  ∧ get_entry_size (.list []) s = (0, s)
  ∧ topLoop (.other :: rest) s = topLoop rest s
  ∧ topLoop (.list [] :: rest) s = topLoop rest s :=
  ⟨rfl, rfl, rfl, rfl⟩

/-- C9: an aggregation call only inserts into the dedup set: the final set
contains the initial one and every element of it was already present or is the
inode identifier of some visited mapping node of the subtree; and the call is
deterministic, equal inputs giving equal totals and equal final sets. -/
theorem C9_frame (e : Entry) (s : Finset Int) :
    s ⊆ (get_entry_size e s).2
  ∧ (∀ x ∈ (get_entry_size e s).2,
      x ∈ s ∨ ∃ f ∈ fileNodes e, inoOf f = some x)
  ∧ ∀ e' s', e' = e → s' = s → get_entry_size e' s' = get_entry_size e s := by
  refine ⟨subset_get_entry_size e s, ?_, ?_⟩
  · intro x hx
    rcases mem_final_get_entry_size e s x hx with h | h
    · exact Or.inl h
    · right
      simpa [inodesOf, List.mem_filterMap] using h
  · rintro e' s' rfl rfl
    rfl

theorem C9_frame_witness :
    ({3} : Finset Int) ⊆ (get_entry_size dirOne {3}).2
  ∧ get_entry_size dirOne ({3} : Finset Int) = get_entry_size dirOne {3} :=
  ⟨(C9_frame dirOne {3}).1, (C9_frame dirOne {3}).2.2 dirOne {3} rfl rfl⟩

/-- C10: with nonnegative disk-usage fields throughout the subtree,
aggregation is antitone in the initial dedup set: starting from a superset can
only shrink the computed total. -/
theorem C10_antitone (e : Entry) (S T : Finset Int) (hST : S ⊆ T)
    (hd : ∀ f ∈ fileNodes e, 0 ≤ dsizeOf f) :
    (get_entry_size e T).1 ≤ (get_entry_size e S).1 :=
  (mono_get_entry_size e S T hST hd).2

theorem C10_antitone_witness :
    (get_entry_size dirOne {7}).1 ≤ (get_entry_size dirOne ∅).1 :=
  C10_antitone dirOne ∅ {7} (by decide) (by decide)

/-- C3: the grand total is one aggregation of the entire root from a fresh
(empty) dedup set, and the top entries come from one loop threading a single
shared set of its own, also started empty; on `sharedInodeDoc`, whose root has
two top-level directories each containing a file with inode 7, the sum of the
top-entry sizes is strictly below the grand total. -/
theorem C3_cross_pass (d : Doc) (i ds as : Option Int) (nm : Option String)
    (rest : List Entry)
    (h : locateRoot d = some (.list (.dict i ds as nm :: rest))) :
    (generate_metadata d).total_size
      = some (get_entry_size (.list (.dict i ds as nm :: rest)) ∅).1
  ∧ (generate_metadata d).top_entries = some (topLoop rest ∅).1
  ∧ dirContainsFileWithIno dirOne 7
  ∧ dirContainsFileWithIno dirTwo 7
  ∧ locateRoot sharedInodeDoc
      = some (.list [.dict none (some 4096) none (some "root"),
                     dirOne, dirTwo, oddChild])
  ∧ topSum ((generate_metadata sharedInodeDoc).top_entries.getD [])
      < (generate_metadata sharedInodeDoc).total_size.getD 0 := by
  refine ⟨?_, ?_, ?_, ?_, rfl, by decide⟩
  · unfold generate_metadata
    rw [h]
  · unfold generate_metadata
    rw [h]
  · exact ⟨.dict none (some 4096) none (some "d1"),
      [.dict (some 7) (some 10) none (some "f1")], rfl,
      .dict (some 7) (some 10) none (some "f1"), by simp, rfl⟩
  · exact ⟨.dict none (some 4096) none (some "d2"),
      [.dict (some 7) (some 10) none (some "f2")], rfl,
      .dict (some 7) (some 10) none (some "f2"), by simp, rfl⟩

theorem C3_cross_pass_witness :
    (generate_metadata sharedInodeDoc).total_size
      = some (get_entry_size
          (.list [.dict none (some 4096) none (some "root"),
                  dirOne, dirTwo, oddChild]) ∅).1 :=
  (C3_cross_pass sharedInodeDoc none (some 4096) none (some "root")
    [dirOne, dirTwo, oddChild] rfl).1

/-- C4 fails on the code: `dictRootDoc`'s internal data array has four
elements (more than 3), yet because element index 3 is a mapping rather than a
nonempty sequence, the summary omits all three computed fields. -/
theorem C4_counterexample :
    3 < dictRootDoc.data.length
  ∧ (generate_metadata dictRootDoc).total_size = none
  ∧ (generate_metadata dictRootDoc).top_entries = none
  ∧ (generate_metadata dictRootDoc).total_entries = none := by
  exact ⟨by decide, rfl, rfl, rfl⟩

/-- C4 (amended): the three computed fields are all absent when no nonempty
sequence is located at data index 3; when one is located, `top_entries` and
`total_entries` are always present, while `total_size` is present exactly when
the located sequence's first element is a mapping, so it can be omitted
individually. -/
theorem C4_amended_presence (d : Doc) :
    ((∀ m rest, locateRoot d ≠ some (.list (m :: rest))) →
        (generate_metadata d).total_size = none
      ∧ (generate_metadata d).top_entries = none
      ∧ (generate_metadata d).total_entries = none)
  ∧ (∀ m rest, locateRoot d = some (.list (m :: rest)) →
        (generate_metadata d).top_entries = some (topLoop rest ∅).1
      ∧ (generate_metadata d).total_entries = some ((m :: rest).length - 1)
      ∧ ((∃ i ds as nm, m = Entry.dict i ds as nm) →
          (generate_metadata d).total_size
            = some (get_entry_size (.list (m :: rest)) ∅).1)
      ∧ ((∀ i ds as nm, m ≠ Entry.dict i ds as nm) →
          (generate_metadata d).total_size = none)) := by
  constructor
  · intro hnone
    unfold generate_metadata
    cases hl : locateRoot d with
    | none => exact ⟨rfl, rfl, rfl⟩
    | some e =>
      cases e with
      | dict i ds as nm => exact ⟨rfl, rfl, rfl⟩
      | other => exact ⟨rfl, rfl, rfl⟩
      | list cs =>
        cases cs with
        | nil => exact ⟨rfl, rfl, rfl⟩
        | cons m rest => exact absurd hl (hnone m rest)
  · intro m rest h
    unfold generate_metadata
    rw [h]
    refine ⟨rfl, rfl, ?_, ?_⟩
    · rintro ⟨i, ds, as, nm, rfl⟩
      rfl
    · intro hne
      cases m with
      | dict i ds as nm => exact absurd rfl (hne i ds as nm)
      | other => rfl
      | list cs => rfl

theorem C4_amended_presence_witness :
    (generate_metadata headlessRootDoc).total_size = none
  ∧ (generate_metadata headlessRootDoc).top_entries
      = some (topLoop [dirOne] ∅).1 :=
  ⟨((C4_amended_presence headlessRootDoc).2 .other [dirOne] rfl).2.2.2
      (fun _ _ _ _ h => Entry.noConfusion h),
   ((C4_amended_presence headlessRootDoc).2 .other [dirOne] rfl).1⟩

/-- C7: whenever a root sequence is located, `total_entries` is its length
minus one (the metadata element), whatever the children's shapes; and on
`sharedInodeDoc`, whose root has a malformed child, `total_entries` (3)
strictly exceeds the number of emitted top entries (2). -/
theorem C7_total_entries (d : Doc) (m : Entry) (rest : List Entry)
    (h : locateRoot d = some (.list (m :: rest))) :
    (generate_metadata d).total_entries = some ((m :: rest).length - 1)
  ∧ (generate_metadata sharedInodeDoc).total_entries = some 3
  ∧ ((generate_metadata sharedInodeDoc).top_entries.getD []).length = 2
  ∧ ((generate_metadata sharedInodeDoc).top_entries.getD []).length < 3 := by
  refine ⟨?_, rfl, rfl, by decide⟩
  unfold generate_metadata
  rw [h]

theorem C7_total_entries_witness :
    (generate_metadata sharedInodeDoc).total_entries
      = some ((Entry.dict none (some 4096) none (some "root")
          :: [dirOne, dirTwo, oddChild]).length - 1) :=
  (C7_total_entries sharedInodeDoc (.dict none (some 4096) none (some "root"))
    [dirOne, dirTwo, oddChild] rfl).1

/-- C8: `top_entries` is the in-order shared-set loop over the root's
children; a sequence child with a mapping head is emitted with the head's name
(default "unknown"), its aggregated size and a has-children flag that is true
exactly when the child has more than one element; a mapping child is emitted
with its own name (default "unknown"), its aggregated size and flag false;
every other child emits nothing. -/
theorem C8_top_entries_shape (d : Doc) (m : Entry) (rest : List Entry)
    (h : locateRoot d = some (.list (m :: rest))) :
    (generate_metadata d).top_entries = some (topLoop rest ∅).1
  ∧ (∀ (i ds as : Option Int) (nm : Option String) (tail prev : List Entry)
        (s : Finset Int),
      topLoop (.list (.dict i ds as nm :: tail) :: prev) s =
        (((get_entry_size (.list (.dict i ds as nm :: tail)) s).1,
            nm.getD "unknown",
            decide (1 < (Entry.dict i ds as nm :: tail).length))
          :: (topLoop prev
                (get_entry_size (.list (.dict i ds as nm :: tail)) s).2).1,
         (topLoop prev
            (get_entry_size (.list (.dict i ds as nm :: tail)) s).2).2))
  ∧ (∀ (i ds as : Option Int) (nm : Option String) (prev : List Entry)
        (s : Finset Int),
      topLoop (.dict i ds as nm :: prev) s =
        (((get_entry_size (.dict i ds as nm) s).1, nm.getD "unknown", false)
          :: (topLoop prev (get_entry_size (.dict i ds as nm) s).2).1,
         (topLoop prev (get_entry_size (.dict i ds as nm) s).2).2))
  ∧ (∀ (x : Entry) (tail : List Entry),
      (decide (1 < (x :: tail).length) = true) ↔ tail ≠ [])
  ∧ (∀ (prev : List Entry) (s : Finset Int) (cs : List Entry),
      topLoop (.other :: prev) s = topLoop prev s
    ∧ topLoop (.list [] :: prev) s = topLoop prev s
    ∧ topLoop (.list (.other :: cs) :: prev) s = topLoop prev s
    ∧ topLoop (.list (.list cs :: cs) :: prev) s = topLoop prev s) := by
  refine ⟨?_, fun _ _ _ _ _ _ _ => rfl, fun _ _ _ _ _ _ => rfl, ?_, ?_⟩
  · unfold generate_metadata
    rw [h]
  · intro x tail
    cases tail <;> simp
  · intro prev s cs
    exact ⟨rfl, rfl, rfl, rfl⟩

theorem C8_top_entries_shape_witness :
    (generate_metadata sharedInodeDoc).top_entries
      = some (topLoop [dirOne, dirTwo, oddChild] ∅).1 :=
  (C8_top_entries_shape sharedInodeDoc
    (.dict none (some 4096) none (some "root"))
    [dirOne, dirTwo, oddChild] rfl).1
